import Mathlib

/-!
Verification of the redis-autopipeline coalescing engine.

Go strings are byte sequences; we model them as `List Nat` with every byte
below 256 where it matters.  Machine integers are modelled as `Nat`/`Int`
with explicit `% 2^w` where overflow matters.
-/

set_option autoImplicit false

namespace AutoPipeline

/-- A Go string, viewed as its byte sequence. -/
abbrev GoStr := List Nat

/-- The `operationPrefix` byte enumeration from `client.go`
(`HDel = iota + 1`, …, `MGet`).  The Go type is a `byte`; the eight
declared constants are its only inhabitants used by the package. -/
inductive opKind where
  | HDel
  | Expire
  | HGet
  | HGetAll
  | Get
  | Del
  | SMembers
  | MGet
deriving DecidableEq, Repr

/-- The byte value of each `operationPrefix` constant (`iota + 1`). -/
def opKind.toByte : opKind → Nat
  | .HDel => 1
  | .Expire => 2
  | .HGet => 3
  | .HGetAll => 4
  | .Get => 5
  | .Del => 6
  | .SMembers => 7
  | .MGet => 8

/-- The constant `hashDelimiter` from `hash.go`: the comma, byte 44. -/
def hashDelimiter : Nat := 44

/-- The byte sequence `hashStringSlice` feeds to SHA-256: the operation
byte, then every argument followed by the delimiter
(`buffer.WriteByte(byte(operation))`; `WriteString(s)`;
`WriteString(hashDelimiter)`). -/
def hashInput (operation : opKind) (args : List GoStr) : List Nat :=
  operation.toByte :: (args.map (fun s => s ++ [hashDelimiter])).flatten

/-! ### SHA-256 (`crypto/sha256.Sum256`), over byte lists -/

/-- Truncation to 32 bits. -/
def mask32 (x : Nat) : Nat := x % 4294967296

/-- Right rotation of a 32-bit value (input below `2^32`). -/
def rotr32 (n x : Nat) : Nat := mask32 ((x >>> n) ||| (x <<< (32 - n)))

def sha256K : List Nat :=
  [1116352408, 1899447441, 3049323471, 3921009573,
   961987163, 1508970993, 2453635748, 2870763221,
   3624381080, 310598401, 607225278, 1426881987,
   1925078388, 2162078206, 2614888103, 3248222580,
   3835390401, 4022224774, 264347078, 604807628,
   770255983, 1249150122, 1555081692, 1996064986,
   2554220882, 2821834349, 2952996808, 3210313671,
   3336571891, 3584528711, 113926993, 338241895,
   666307205, 773529912, 1294757372, 1396182291,
   1695183700, 1986661051, 2177026350, 2456956037,
   2730485921, 2820302411, 3259730800, 3345764771,
   3516065817, 3600352804, 4094571909, 275423344,
   430227734, 506948616, 659060556, 883997877,
   958139571, 1322822218, 1537002063, 1747873779,
   1955562222, 2024104815, 2227730452, 2361852424,
   2428436474, 2756734187, 3204031479, 3329325298]

def sha256H0 : List Nat :=
  [1779033703, 3144134277, 1013904242, 2773480762,
   1359893119, 2600822924, 528734635, 1541459225]

/-- Big-endian 8-byte encoding of a 64-bit value. -/
def be64 (n : Nat) : List Nat :=
  [n >>> 56 % 256, n >>> 48 % 256, n >>> 40 % 256, n >>> 32 % 256,
   n >>> 24 % 256, n >>> 16 % 256, n >>> 8 % 256, n % 256]

/-- SHA-256 padding: append `0x80`, zeros, then the bit length, reaching a
multiple of 64 bytes. -/
def sha256Pad (msg : List Nat) : List Nat :=
  msg ++ 0x80 :: List.replicate ((64 - (msg.length + 9) % 64) % 64) 0
      ++ be64 (8 * msg.length)

/-- Split into 64-byte chunks. -/
def chunks64 : List Nat → List (List Nat)
  | [] => []
  | l@(_ :: _) => l.take 64 :: chunks64 (l.drop 64)
termination_by l => l.length
decreasing_by simp_all [List.length_drop]; omega

/-- Big-endian 32-bit words from bytes. -/
def bytesToWords : List Nat → List Nat
  | a :: b :: c :: d :: rest =>
      (a * 16777216 + b * 65536 + c * 256 + d) :: bytesToWords rest
  | _ => []

def smallSigma0 (x : Nat) : Nat := rotr32 7 x ^^^ rotr32 18 x ^^^ (x >>> 3)
def smallSigma1 (x : Nat) : Nat := rotr32 17 x ^^^ rotr32 19 x ^^^ (x >>> 10)
def bigSigma0 (x : Nat) : Nat := rotr32 2 x ^^^ rotr32 13 x ^^^ rotr32 22 x
def bigSigma1 (x : Nat) : Nat := rotr32 6 x ^^^ rotr32 11 x ^^^ rotr32 25 x

/-- Extend the 16-word schedule by `n` more words. -/
def extendSchedule (w : List Nat) : Nat → List Nat
  | 0 => w
  | n + 1 =>
      extendSchedule
        (w ++ [mask32 (w.getD (w.length - 16) 0
                + smallSigma0 (w.getD (w.length - 15) 0)
                + w.getD (w.length - 7) 0
                + smallSigma1 (w.getD (w.length - 2) 0))]) n

/-- One compression round on the working variables `[a,b,c,d,e,f,g,h]`. -/
def sha256Round (st : List Nat) (kw : Nat × Nat) : List Nat :=
  match st with
  | [a, b, c, d, e, f, g, h] =>
      let ch := (e &&& f) ^^^ ((4294967295 - e) &&& g)
      let maj := (a &&& b) ^^^ (a &&& c) ^^^ (b &&& c)
      let t1 := mask32 (h + bigSigma1 e + ch + kw.1 + kw.2)
      let t2 := mask32 (bigSigma0 a + maj)
      [mask32 (t1 + t2), a, b, c, mask32 (d + t1), e, f, g]
  | other => other

/-- Process one 64-byte chunk. -/
def sha256Chunk (hs : List Nat) (chunk : List Nat) : List Nat :=
  let w := extendSchedule (bytesToWords chunk) 48
  let final := (sha256K.zip w).foldl sha256Round hs
  List.zipWith (fun x y => mask32 (x + y)) hs final

/-- SHA-256 of a byte list, as eight 32-bit words. -/
def sha256 (msg : List Nat) : List Nat :=
  (chunks64 (sha256Pad msg)).foldl sha256Chunk sha256H0

/-- Lowercase hex digit byte. -/
def hexDigit (n : Nat) : Nat := if n < 10 then 48 + n else 87 + n

/-- Eight lowercase hex digit bytes of a 32-bit word (`fmt.Sprintf("%x")`). -/
def wordToHex (w : Nat) : List Nat :=
  [hexDigit (w >>> 28 % 16), hexDigit (w >>> 24 % 16),
   hexDigit (w >>> 20 % 16), hexDigit (w >>> 16 % 16),
   hexDigit (w >>> 12 % 16), hexDigit (w >>> 8 % 16),
   hexDigit (w >>> 4 % 16), hexDigit (w % 16)]

/-- The 64-character lowercase hex string of the SHA-256 digest. -/
def sha256hex (msg : List Nat) : List Nat :=
  ((sha256 msg).map wordToHex).flatten

/-- The function `hashStringSlice` from `hash.go`: hex-encoded SHA-256 of the
kind-tagged, delimiter-joined argument bytes. -/
def hashStringSlice (operation : opKind) (args : List GoStr) : List Nat :=
  sha256hex (hashInput operation args)

/-! ### Argument transformers (`transformer.go`)

`strconv.Itoa` / `strconv.Atoi` are Go standard library collaborators;
they are modelled below as exact decimal conversion on byte strings,
matching their behaviour on the 64-bit range (the conversion
`int(expiration.Nanoseconds())` is modelled by `toInt64`, the wrapping
reduction of `Int` to the `int64` range). -/

/-- Decimal digit values of `n`, least significant first. -/
def natDigitsRev (n : Nat) : List Nat :=
  if n < 10 then [n] else n % 10 :: natDigitsRev (n / 10)
termination_by n
decreasing_by omega

/-- Go `strconv.Itoa` on a nonnegative value: most-significant-first decimal
digit bytes. -/
def itoaNat (n : Nat) : List Nat := (natDigitsRev n).reverse.map (fun d => d + 48)

/-- Go `strconv.Itoa`: optional minus sign, then decimal digits. -/
def itoaInt (i : Int) : GoStr :=
  if i < 0 then 45 :: itoaNat i.natAbs else itoaNat i.toNat

def isDigitByte (b : Nat) : Bool := 48 ≤ b && b ≤ 57

/-- Value of a most-significant-first digit byte string. -/
def parseDigits (l : List Nat) : Nat :=
  l.foldl (fun acc b => acc * 10 + (b - 48)) 0

/-- Go `strconv.Atoi` with its error discarded (the caller in
`normalizeExpire` ignores the error, leaving `0` on malformed input):
optional sign then decimal digits. -/
def atoiInt (s : GoStr) : Int :=
  match s with
  | [] => 0
  | b :: rest =>
    if b = 43 then
      (if rest ≠ [] ∧ rest.all isDigitByte then (parseDigits rest : Int) else 0)
    else if b = 45 then
      (if rest ≠ [] ∧ rest.all isDigitByte then -(parseDigits rest : Int) else 0)
    else if (b :: rest).all isDigitByte then (parseDigits (b :: rest) : Int) else 0

/-- Wrapping (two-complement) reduction to the `int64` range, modelling
the Go conversion `int(...)` on a 64-bit platform. -/
def toInt64 (n : Int) : Int := (n + 2 ^ 63) % 2 ^ 64 - 2 ^ 63

/-- The function `transformHDel` from `transformer.go`. -/
def transformHDel (key : GoStr) (fields : List GoStr) : List GoStr :=
  if fields.length = 0 then [key] else key :: fields

/-- The function `normalizeHDel` from `transformer.go` (`values[0]` on an empty slice
would panic in Go; the model totalizes it with the empty string). -/
def normalizeHDel (values : List GoStr) : GoStr × List GoStr :=
  if values.length = 1 then (values.headD [], []) else (values.headD [], values.tail)

/-- The function `transformDel`. -/
def transformDel (keys : List GoStr) : List GoStr := keys

/-- The function `normalizeDel`. -/
def normalizeDel (values : List GoStr) : List GoStr := values

/-- The function `transformMGet`. -/
def transformMGet (keys : List GoStr) : List GoStr := keys

/-- The function `normalizeMGet`. -/
def normalizeMGet (values : List GoStr) : List GoStr := values

/-- The function `transformHGet`. -/
def transformHGet (key field : GoStr) : List GoStr := [key, field]

/-- The function `normalizeHGet`. -/
def normalizeHGet (values : List GoStr) : GoStr × GoStr :=
  (values.headD [], (values.tail).headD [])

/-- The function `transformGet`. -/
def transformGet (key : GoStr) : List GoStr := [key]

/-- The function `normalizeGet`. -/
def normalizeGet (values : List GoStr) : GoStr := values.headD []

/-- The function `transformHGetAll`. -/
def transformHGetAll (key : GoStr) : List GoStr := [key]

/-- The function `normalizeHGetAll`. -/
def normalizeHGetAll (values : List GoStr) : GoStr := values.headD []

/-- The function `transformSMembers`. -/
def transformSMembers (key : GoStr) : List GoStr := [key]

/-- The function `normalizeSMembers`. -/
def normalizeSMembers (values : List GoStr) : GoStr := values.headD []

/-- The function `transformExpire`: the key, then
`strconv.Itoa(int(expiration.Nanoseconds()))`.  A `time.Duration` is an
`int64` count of nanoseconds, modelled as an `Int` reduced by `toInt64`. -/
def transformExpire (key : GoStr) (expiration : Int) : List GoStr :=
  [key, itoaInt (toInt64 expiration)]

/-- The function `normalizeExpire`: first value as key, Go `strconv.Atoi` of the second
as the duration in nanoseconds. -/
def normalizeExpire (values : List GoStr) : GoStr × Int :=
  (values.headD [], atoiInt ((values.tail).headD []))

/-! ### The coalescing engine (`cache` in `src/unnamed/part_001`)

The engine is shallowly embedded by explicit state passing.  Caller
result channels are identified by numbers; whether a channel is still
open is an environment `chans : Nat → Bool` owned by the callers (a
closed channel is one the caller has abandoned; in Go, sending on it
panics).  Time is an `Int`: `lastPipeline` is kept in microseconds
exactly as the code stores `time.Now().UnixMicro()`, and the tick
decision receives the current time in nanoseconds. -/

/-- A Go error value, as `pipe.Exec` can return it: the `redis.Nil`
sentinel, or any other (transport-level) error. -/
inductive goError where
  | redisNil
  | transport (code : Nat)
deriving DecidableEq, Repr

/-- Events reported to the collaborating logger. -/
inductive logEvent where
  | errCacheStopped
  | errHashNotFound (hash : List Nat)
  | recovered
  | bulkError (e : goError)
deriving DecidableEq, Repr

/-- The struct `redisOperation`: arguments, listener channels, and command kind. -/
structure redisOperation where
  args : List GoStr
  listeners : List Nat
  kind : opKind
deriving DecidableEq, Repr

/-- The `cache` struct: the pending-operation table (a map from hash to
operation, modelled as an association list with unique keys), the
active-listener counter, thresholds, the last-pipeline timestamp in
microseconds, the stopped flag, and the log written so far. -/
structure cacheState where
  storage : List (List Nat × redisOperation)
  activeListeners : Int
  storageThresholdSize : Int
  storageThresholdTime : Int
  runInterval : Int
  lastPipeline : Int
  done : Bool
  log : List logEvent
deriving DecidableEq, Repr

/-- Map lookup on the association-list model of `c.storage`. -/
def lookupOp : List (List Nat × redisOperation) → List Nat → Option redisOperation
  | [], _ => none
  | (k, v) :: rest, h => if k = h then some v else lookupOp rest h

/-- Map deletion (`delete(c.storage, hash)`): removes the entry with the
given key (the first, which is the only one when keys are unique). -/
def eraseOp : List (List Nat × redisOperation) → List Nat → List (List Nat × redisOperation)
  | [], _ => []
  | (k, v) :: rest, h => if k = h then rest else (k, v) :: eraseOp rest h

/-- Map update at an existing key. -/
def updateOp : List (List Nat × redisOperation) → List Nat → redisOperation →
    List (List Nat × redisOperation)
  | [], _, _ => []
  | (k, v) :: rest, h, o => if k = h then (k, o) :: rest else (k, v) :: updateOp rest h o

/-- What `enqueue` hands back: the result channel, and whether it was
already closed at creation (the stopped-engine path closes it). -/
structure enqueueRet where
  ch : Nat
  closed : Bool
deriving DecidableEq, Repr

/-- The function `enqueue` from `src/unnamed/part_001`.  `newCh` is the fresh channel
created by `make(chan interface{}, 1)`. -/
def enqueue (st : cacheState) (kind : opKind) (args : List GoStr) (newCh : Nat) :
    cacheState × enqueueRet :=
  if st.done then
    ({ st with log := st.log ++ [logEvent.errCacheStopped] }, ⟨newCh, true⟩)
  else
    let h := hashStringSlice kind args
    match lookupOp st.storage h with
    | none =>
        ({ st with
            storage := st.storage ++ [(h, ⟨args, [newCh], kind⟩)],
            activeListeners := st.activeListeners + 1 }, ⟨newCh, false⟩)
    | some o =>
        ({ st with
            storage := updateOp st.storage h { o with listeners := o.listeners ++ [newCh] },
            activeListeners := st.activeListeners + 1 }, ⟨newCh, false⟩)

/-- The delivery loop body of `sendResult`: sends `cmd` to each listener
in order, decrementing once per send.  Sending to a closed channel
panics, so the loop stops there — the recover in `sendResult` catches
it.  Returns the deliveries made, the number of decrements, and whether
a panic occurred. -/
def deliverListeners (chans : Nat → Bool) (cmd : Nat) :
    List Nat → List (Nat × Nat) × Int × Bool
  | [] => ([], 0, false)
  | r :: rest =>
      if chans r then
        ((r, cmd) :: (deliverListeners chans cmd rest).1,
         (deliverListeners chans cmd rest).2.1 + 1,
         (deliverListeners chans cmd rest).2.2)
      else ([], 0, true)

/-- The function `sendResult` from `src/unnamed/part_001`: look the hash up (logging
`ErrHashNotFound` if absent), remove the entry, then deliver to each
listener; a send to a closed channel is recovered and logged, ending
the deliveries of this operation.  Returns the new state and the deliveries
made. -/
def sendResult (chans : Nat → Bool) (st : cacheState) (hash : List Nat) (cmd : Nat) :
    cacheState × List (Nat × Nat) :=
  match lookupOp st.storage hash with
  | none => ({ st with log := st.log ++ [logEvent.errHashNotFound hash] }, [])
  | some o =>
      ({ st with
          storage := eraseOp st.storage hash,
          activeListeners :=
            st.activeListeners - (deliverListeners chans cmd o.listeners).2.1,
          log := st.log ++
            if (deliverListeners chans cmd o.listeners).2.2
            then [logEvent.recovered] else [] },
       (deliverListeners chans cmd o.listeners).1)

/-- Which typed command map of `runPipeline` holds each kind
(`intCmds`, `sliceCmds`, `stringCmds`, `stringStringMapCmds`,
`stringSliceCmds`, `boolCmds` in order). -/
def cmdGroup : opKind → Nat
  | .HDel => 0
  | .Del => 0
  | .MGet => 1
  | .HGet => 2
  | .Get => 2
  | .HGetAll => 3
  | .SMembers => 4
  | .Expire => 5

/-- The snapshot in the order `runPipeline` dispatches it: the six typed
command maps are drained one after the other. -/
def dispatchOrder (storage : List (List Nat × redisOperation)) :
    List (List Nat × redisOperation) :=
  (List.range 6).flatMap (fun g => storage.filter (fun p => cmdGroup p.2.kind = g))

/-- The dispatch loops of `runPipeline`: one `sendResult` call per
snapshotted hash, each delivering the pending command of that hash. -/
def runDispatch (chans : Nat → Bool) (res : List Nat → Nat) :
    cacheState → List (List Nat) → cacheState × List (Nat × Nat)
  | st, [] => (st, [])
  | st, h :: hs =>
      ((runDispatch chans res (sendResult chans st h (res h)).1 hs).1,
       (sendResult chans st h (res h)).2 ++
         (runDispatch chans res (sendResult chans st h (res h)).1 hs).2)

/-- The test `err != nil && !errors.Is(err, redis.Nil)`. -/
def isBulkFailure : Option goError → Bool
  | none => false
  | some e => decide (e ≠ goError.redisNil)

/-- The function `runPipeline` from `src/unnamed/part_001`.  `res` maps each hash to
the pending command object its submission produced; `bulkErr` is what
`pipe.Exec` returned; `nowMicro` is `time.Now().UnixMicro()` at the
store.  Returns the new state, the deliveries, and the submissions made
to the pipeline (one per snapshotted entry, queued before `Exec`). -/
def runPipeline (chans : Nat → Bool) (res : List Nat → Nat) (bulkErr : Option goError)
    (nowMicro : Int) (st : cacheState) :
    cacheState × List (Nat × Nat) × List (List Nat × redisOperation) :=
  if isBulkFailure bulkErr then
    ({ st with log := st.log ++ [logEvent.bulkError (bulkErr.getD goError.redisNil)] },
     [], dispatchOrder st.storage)
  else
    ((runDispatch chans res { st with lastPipeline := nowMicro }
        ((dispatchOrder st.storage).map Prod.fst)).1,
     (runDispatch chans res { st with lastPipeline := nowMicro }
        ((dispatchOrder st.storage).map Prod.fst)).2,
     dispatchOrder st.storage)

/-- What one non-cancelled tick of `run` decides. -/
inductive tickAction where
  | flushSize
  | flushTime
  | idle
deriving DecidableEq, Repr

/-- The trigger policy of one tick of `run` (the `default` branch after
the sleep): flush if the listener count strictly exceeds the size
threshold, skipping the time check; else flush if the last pipeline time
(microseconds, widened to nanoseconds) plus the ttl is strictly before
now and there is at least one listener.  `nowNano` is `time.Now()` in
nanoseconds. -/
def tickDecision (st : cacheState) (nowNano : Int) : tickAction :=
  if st.activeListeners > st.storageThresholdSize then .flushSize
  else if st.lastPipeline * 1000 + st.storageThresholdTime < nowNano
      ∧ st.activeListeners > 0 then .flushTime
  else .idle

/-- Sum of listener-list lengths over the table. -/
def sumListeners (storage : List (List Nat × redisOperation)) : Int :=
  (storage.map (fun p => (p.2.listeners.length : Int))).sum

/-- Key-uniqueness of the table (a `map` in Go). -/
def keysNodup (storage : List (List Nat × redisOperation)) : Prop :=
  (storage.map Prod.fst).Nodup

/-- Ownership: `l` is a listener only of the entry at `h`: every entry containing
`l` has key `h`.  Holds in real runs because every enqueue creates a
fresh channel and stores it in exactly one entry. -/
def ownedBy (storage : List (List Nat × redisOperation)) (l : Nat) (h : List Nat) : Prop :=
  ∀ p ∈ storage, l ∈ p.2.listeners → p.1 = h

/-- The delimiter-joined argument bytes (the part of the hash input
after the operation byte). -/
def encodeArgs (args : List GoStr) : List Nat :=
  (args.map (fun s => s ++ [hashDelimiter])).flatten

/-- No argument contains the delimiter byte. -/
def delimFree (args : List GoStr) : Prop :=
  ∀ s ∈ args, hashDelimiter ∉ s

instance (args : List GoStr) : Decidable (delimFree args) :=
  inferInstanceAs (Decidable (∀ s ∈ args, hashDelimiter ∉ s))

/-- Number of table entries with the given key. -/
def countKey (h : List Nat) (l : List (List Nat × redisOperation)) : Nat :=
  l.countP (fun p => decide (p.1 = h))

/-- Number of deliveries made to a given listener channel. -/
def countDeliv (x : Nat) (d : List (Nat × Nat)) : Nat :=
  d.countP (fun q => decide (q.1 = x))

/-! ### Association-list lemmas -/

theorem lookupOp_append_of_none {l : List (List Nat × redisOperation)} {h : List Nat}
    (hnone : lookupOp l h = none) (o : redisOperation) :
    lookupOp (l ++ [(h, o)]) h = some o := by
  induction l with
  | nil => simp [lookupOp]
  | cons p rest ih =>
      simp only [lookupOp] at hnone ⊢
      by_cases hk : p.1 = h
      · simp [hk] at hnone
      · rcases p with ⟨k, v⟩
        simp only [lookupOp, List.cons_append] at hnone ⊢
        rw [if_neg hk] at hnone ⊢
        exact ih hnone

theorem lookupOp_append_ne {l : List (List Nat × redisOperation)} {h h2 : List Nat}
    (hne : h2 ≠ h) (o : redisOperation) :
    lookupOp (l ++ [(h, o)]) h2 = lookupOp l h2 := by
  induction l with
  | nil =>
      simp only [List.nil_append, lookupOp]
      rw [if_neg (Ne.symm hne)]
  | cons p rest ih =>
      rcases p with ⟨k, v⟩
      simp only [lookupOp, List.cons_append]
      by_cases hk : k = h2
      · simp [hk]
      · rw [if_neg hk, if_neg hk]; exact ih

theorem lookupOp_updateOp_self {l : List (List Nat × redisOperation)} {h : List Nat}
    {o' : redisOperation} (hsome : lookupOp l h = some o') (o : redisOperation) :
    lookupOp (updateOp l h o) h = some o := by
  induction l with
  | nil => simp [lookupOp] at hsome
  | cons p rest ih =>
      rcases p with ⟨k, v⟩
      simp only [lookupOp, updateOp] at hsome ⊢
      by_cases hk : k = h
      · simp [hk, lookupOp]
      · rw [if_neg hk] at hsome
        rw [if_neg hk]
        simp only [lookupOp]
        rw [if_neg hk]
        exact ih hsome

theorem lookupOp_updateOp_ne {l : List (List Nat × redisOperation)} {h h2 : List Nat}
    (hne : h2 ≠ h) (o : redisOperation) :
    lookupOp (updateOp l h o) h2 = lookupOp l h2 := by
  induction l with
  | nil => simp [updateOp]
  | cons p rest ih =>
      rcases p with ⟨k, v⟩
      simp only [lookupOp, updateOp]
      by_cases hk : k = h
      · subst hk
        simp only [lookupOp]
        rw [if_neg (fun hh => hne hh.symm), if_neg (fun hh => hne hh.symm)]
      · rw [if_neg hk]
        simp only [lookupOp]
        by_cases hk2 : k = h2
        · simp [hk2]
        · rw [if_neg hk2, if_neg hk2]; exact ih

/-! ### C5: enqueue on a stopped engine -/

/-- C5: an `enqueue` call made after the engine has stopped returns an
already-closed handle, logs the `ErrCacheStopped` condition, and leaves
the pending-operation table and the active-listener counter unchanged. -/
theorem enqueue_stopped (st : cacheState) (kind : opKind) (args : List GoStr)
    (newCh : Nat) (hdone : st.done = true) :
    enqueue st kind args newCh =
      ({ st with log := st.log ++ [logEvent.errCacheStopped] }, ⟨newCh, true⟩) ∧
    (enqueue st kind args newCh).1.storage = st.storage ∧
    (enqueue st kind args newCh).1.activeListeners = st.activeListeners ∧
    (enqueue st kind args newCh).2.closed = true := by
  simp [enqueue, hdone]

/-- Witness for `enqueue_stopped` at a concrete stopped state. -/
theorem enqueue_stopped_witness :
    (enqueue ⟨[], 0, 100, 1000, 50, 0, true, []⟩ opKind.Get [[107]] 7).1.storage = [] ∧
    (enqueue ⟨[], 0, 100, 1000, 50, 0, true, []⟩ opKind.Get [[107]] 7).2.closed = true :=
  ⟨(enqueue_stopped ⟨[], 0, 100, 1000, 50, 0, true, []⟩ opKind.Get [[107]] 7 rfl).2.1,
   (enqueue_stopped ⟨[], 0, 100, 1000, 50, 0, true, []⟩ opKind.Get [[107]] 7 rfl).2.2.2⟩

/-! ### C7: the size trigger -/

/-- C7: on every control-loop tick the size trigger fires exactly when
the active-listener count is strictly greater than the configured
maximum, and the decision of a size-triggered tick does not depend on
the clock (the time trigger is not evaluated in the same cycle). -/
theorem size_trigger_iff (st : cacheState) (nowNano otherNano : Int) :
    (tickDecision st nowNano = tickAction.flushSize ↔
      st.activeListeners > st.storageThresholdSize) ∧
    (tickDecision st nowNano = tickAction.flushSize ↔
      tickDecision st otherNano = tickAction.flushSize) := by
  by_cases hs : st.activeListeners > st.storageThresholdSize
  · simp [tickDecision, hs]
  · constructor
    · simp only [tickDecision, if_neg hs]
      constructor
      · intro hcontra
        by_cases hc : st.lastPipeline * 1000 + st.storageThresholdTime < nowNano
            ∧ st.activeListeners > 0
        · rw [if_pos hc] at hcontra; exact absurd hcontra (by simp)
        · rw [if_neg hc] at hcontra; exact absurd hcontra (by simp)
      · intro hcontra; exact absurd hcontra hs
    · simp only [tickDecision, if_neg hs]
      constructor
      · intro hcontra
        by_cases hc : st.lastPipeline * 1000 + st.storageThresholdTime < nowNano
            ∧ st.activeListeners > 0
        · rw [if_pos hc] at hcontra; exact absurd hcontra (by simp)
        · rw [if_neg hc] at hcontra; exact absurd hcontra (by simp)
      · intro hcontra
        by_cases hc : st.lastPipeline * 1000 + st.storageThresholdTime < otherNano
            ∧ st.activeListeners > 0
        · rw [if_pos hc] at hcontra; exact absurd hcontra (by simp)
        · rw [if_neg hc] at hcontra; exact absurd hcontra (by simp)

/-! ### C6: the time trigger -/

/-- C6 counterexample: with one pending listener and the elapsed time
since the last flush exactly equal to the ttl (state: one listener,
threshold 100, ttl 1000 ns, last pipeline at microsecond 0; the tick
happens at nanosecond 1000), the code does not flush, though the claim
("at least the configured time-to-live") requires a flush. -/
theorem time_trigger_boundary_counterexample :
    tickDecision ⟨[], 1, 100, 1000, 50, 0, false, []⟩ 1000 = tickAction.idle ∧
    ¬ (cacheState.activeListeners ⟨[], 1, 100, 1000, 50, 0, false, []⟩ >
        cacheState.storageThresholdSize ⟨[], 1, 100, 1000, 50, 0, false, []⟩) ∧
    cacheState.activeListeners ⟨[], 1, 100, 1000, 50, 0, false, []⟩ > 0 ∧
    1000 - cacheState.lastPipeline ⟨[], 1, 100, 1000, 50, 0, false, []⟩ * 1000 ≥
      cacheState.storageThresholdTime ⟨[], 1, 100, 1000, 50, 0, false, []⟩ := by
  refine ⟨?_, by decide, by decide, by decide⟩
  decide

/-- C6 as amended: on a tick where the size trigger did not fire, a
flush is performed if and only if the active-listener count is greater
than zero and the time elapsed since the (microsecond-truncated) last
completed flush is *strictly greater* than the configured time-to-live. -/
theorem time_trigger_iff_strict (st : cacheState) (nowNano : Int)
    (hsize : ¬ st.activeListeners > st.storageThresholdSize) :
    tickDecision st nowNano = tickAction.flushTime ↔
      (st.activeListeners > 0 ∧
       st.lastPipeline * 1000 + st.storageThresholdTime < nowNano) := by
  simp only [tickDecision, if_neg hsize]
  by_cases hc : st.lastPipeline * 1000 + st.storageThresholdTime < nowNano
      ∧ st.activeListeners > 0
  · rw [if_pos hc]
    simp [hc.1, hc.2]
  · rw [if_neg hc]
    constructor
    · intro hcontra; exact absurd hcontra (by simp)
    · intro ⟨h1, h2⟩; exact absurd ⟨h2, h1⟩ hc

/-- Witness for `time_trigger_iff_strict`: with one listener, threshold
100, ttl 1000 ns, last pipeline at 0 and the tick at nanosecond 1001,
the flush fires. -/
theorem time_trigger_iff_strict_witness :
    tickDecision ⟨[], 1, 100, 1000, 50, 0, false, []⟩ 1001 = tickAction.flushTime :=
  (time_trigger_iff_strict ⟨[], 1, 100, 1000, 50, 0, false, []⟩ 1001
    (by decide)).mpr (by decide)

/-! ### C4: bulk execution failure -/

/-- C4: a wholesale Batch Executor failure (a non-nil bulk error other
than `redis.Nil`) aborts the flush with the table, the counter and the
last-flush timestamp unchanged, no deliveries, and the error logged; a
`redis.Nil` bulk outcome behaves exactly like a nil error (dispatch
proceeds to delivery). -/
theorem runPipeline_bulk_failure (chans : Nat → Bool) (res : List Nat → Nat)
    (st : cacheState) (nowMicro : Int) :
    (∀ e : goError, e ≠ goError.redisNil →
      runPipeline chans res (some e) nowMicro st =
        ({ st with log := st.log ++ [logEvent.bulkError e] }, [],
         dispatchOrder st.storage)) ∧
    runPipeline chans res (some goError.redisNil) nowMicro st =
      runPipeline chans res none nowMicro st := by
  constructor
  · intro e he
    simp [runPipeline, isBulkFailure, he]
  · simp [runPipeline, isBulkFailure]

/-- Witness for `runPipeline_bulk_failure`: a transport error on a
concrete one-entry state leaves the table intact and delivers nothing. -/
theorem runPipeline_bulk_failure_witness :
    runPipeline (fun _ => true) (fun _ => 0) (some (goError.transport 3)) 55
        ⟨[([1], ⟨[[107]], [0], opKind.Get⟩)], 1, 100, 1000, 50, 0, false, []⟩ =
      ({ storage := [([1], ⟨[[107]], [0], opKind.Get⟩)], activeListeners := 1,
         storageThresholdSize := 100, storageThresholdTime := 1000,
         runInterval := 50, lastPipeline := 0, done := false,
         log := [logEvent.bulkError (goError.transport 3)] },
       [], dispatchOrder [([1], ⟨[[107]], [0], opKind.Get⟩)]) :=
  (runPipeline_bulk_failure (fun _ => true) (fun _ => 0)
      ⟨[([1], ⟨[[107]], [0], opKind.Get⟩)], 1, 100, 1000, 50, 0, false, []⟩ 55).1
    (goError.transport 3) (by decide)

/-! ### C8: enqueue on a running engine -/

/-- C8: on a running engine, `enqueue` returns the freshly created open
handle and increments the counter by exactly one; with no entry at the
fingerprint it appends a new entry whose listener list is exactly the
one-element list holding the handle; with an existing entry it replaces
only that entry, appending the handle at the end of its listener list
and keeping the other fields; lookups at other keys are unchanged. -/
theorem enqueue_running (st : cacheState) (kind : opKind) (args : List GoStr)
    (newCh : Nat) (hdone : st.done = false) :
    (enqueue st kind args newCh).2 = ⟨newCh, false⟩ ∧
    (enqueue st kind args newCh).1.activeListeners = st.activeListeners + 1 ∧
    (lookupOp st.storage (hashStringSlice kind args) = none →
      (enqueue st kind args newCh).1.storage =
        st.storage ++ [(hashStringSlice kind args, ⟨args, [newCh], kind⟩)] ∧
      lookupOp (enqueue st kind args newCh).1.storage (hashStringSlice kind args) =
        some ⟨args, [newCh], kind⟩) ∧
    (∀ o, lookupOp st.storage (hashStringSlice kind args) = some o →
      (enqueue st kind args newCh).1.storage =
        updateOp st.storage (hashStringSlice kind args)
          { o with listeners := o.listeners ++ [newCh] } ∧
      lookupOp (enqueue st kind args newCh).1.storage (hashStringSlice kind args) =
        some { o with listeners := o.listeners ++ [newCh] }) ∧
    (∀ h2, h2 ≠ hashStringSlice kind args →
      lookupOp (enqueue st kind args newCh).1.storage h2 = lookupOp st.storage h2) := by
  cases hlk : lookupOp st.storage (hashStringSlice kind args) with
  | none =>
      refine ⟨?_, ?_, ?_, ?_, ?_⟩
      · simp [enqueue, hdone, hlk]
      · simp [enqueue, hdone, hlk]
      · intro _
        constructor
        · simp [enqueue, hdone, hlk]
        · have hst : (enqueue st kind args newCh).1.storage =
              st.storage ++ [(hashStringSlice kind args, ⟨args, [newCh], kind⟩)] := by
            simp [enqueue, hdone, hlk]
          rw [hst]
          exact lookupOp_append_of_none hlk _
      · intro o ho; exact absurd ho (by simp)
      · intro h2 hne
        have hst : (enqueue st kind args newCh).1.storage =
            st.storage ++ [(hashStringSlice kind args, ⟨args, [newCh], kind⟩)] := by
          simp [enqueue, hdone, hlk]
        rw [hst]
        exact lookupOp_append_ne hne _
  | some o0 =>
      refine ⟨?_, ?_, ?_, ?_, ?_⟩
      · simp [enqueue, hdone, hlk]
      · simp [enqueue, hdone, hlk]
      · intro hno; exact absurd hno (by simp)
      · intro o ho
        have ho' : o0 = o := by injection ho
        subst ho'
        constructor
        · simp [enqueue, hdone, hlk]
        · have hst : (enqueue st kind args newCh).1.storage =
              updateOp st.storage (hashStringSlice kind args)
                { o0 with listeners := o0.listeners ++ [newCh] } := by
            simp [enqueue, hdone, hlk]
          rw [hst]
          exact lookupOp_updateOp_self hlk _
      · intro h2 hne
        have hst : (enqueue st kind args newCh).1.storage =
            updateOp st.storage (hashStringSlice kind args)
              { o0 with listeners := o0.listeners ++ [newCh] } := by
          simp [enqueue, hdone, hlk]
        rw [hst]
        exact lookupOp_updateOp_ne hne _

/-- Witness for `enqueue_running`: enqueueing on a concrete running
engine with an empty table creates the singleton-listener entry. -/
theorem enqueue_running_witness :
    (enqueue ⟨[], 0, 100, 1000, 50, 0, false, []⟩ opKind.HDel [[97]] 5).1.storage =
      [(hashStringSlice opKind.HDel [[97]], ⟨[[97]], [5], opKind.HDel⟩)] ∧
    (enqueue ⟨[], 0, 100, 1000, 50, 0, false, []⟩ opKind.HDel [[97]] 5).1.activeListeners
      = 1 := by
  have h := enqueue_running ⟨[], 0, 100, 1000, 50, 0, false, []⟩ opKind.HDel [[97]] 5 rfl
  exact ⟨by simpa using (h.2.2.1 rfl).1, by simpa using h.2.1⟩

/-! ### C3: the fingerprint function -/

theorem opKind_toByte_inj {k1 k2 : opKind} (h : k1.toByte = k2.toByte) : k1 = k2 := by
  cases k1 <;> cases k2 <;> first | rfl | exact absurd h (by decide)

/-- Splitting at a separator absent from both prefixes. -/
theorem sep_split {s1 s2 t1 t2 : List Nat} (n1 : hashDelimiter ∉ s1)
    (n2 : hashDelimiter ∉ s2)
    (h : s1 ++ hashDelimiter :: t1 = s2 ++ hashDelimiter :: t2) :
    s1 = s2 ∧ t1 = t2 := by
  induction s1 generalizing s2 with
  | nil =>
      cases s2 with
      | nil => simpa using h
      | cons b s2r =>
          simp only [List.nil_append, List.cons_append, List.cons.injEq] at h
          exact absurd (h.1.symm ▸ List.mem_cons_self b s2r) (h.1 ▸ n2)
  | cons a s1r ih =>
      cases s2 with
      | nil =>
          simp only [List.nil_append, List.cons_append, List.cons.injEq] at h
          exact absurd (h.1 ▸ List.mem_cons_self a s1r) n1
      | cons b s2r =>
          simp only [List.cons_append, List.cons.injEq] at h
          have hn1 : hashDelimiter ∉ s1r := fun hm => n1 (List.mem_cons_of_mem a hm)
          have hn2 : hashDelimiter ∉ s2r := fun hm => n2 (List.mem_cons_of_mem b hm)
          have := ih hn1 hn2 h.2
          exact ⟨by rw [h.1, this.1], this.2⟩

/-- Delimiter-joined encoding is injective on delimiter-free argument
lists. -/
theorem encodeArgs_inj {a1 a2 : List GoStr} (h1 : delimFree a1) (h2 : delimFree a2)
    (he : encodeArgs a1 = encodeArgs a2) : a1 = a2 := by
  induction a1 generalizing a2 with
  | nil =>
      cases a2 with
      | nil => rfl
      | cons s r =>
          simp only [encodeArgs, List.map_nil, List.flatten_nil, List.map_cons,
            List.flatten_cons] at he
          exact absurd he.symm (by simp)
  | cons s r ih =>
      cases a2 with
      | nil =>
          simp only [encodeArgs, List.map_nil, List.flatten_nil, List.map_cons,
            List.flatten_cons] at he
          exact absurd he (by simp)
      | cons s2 r2 =>
          simp only [encodeArgs, List.map_cons, List.flatten_cons,
            List.append_assoc, List.singleton_append] at he
          have hs1 : hashDelimiter ∉ s := h1 s (List.mem_cons_self s r)
          have hs2 : hashDelimiter ∉ s2 := h2 s2 (List.mem_cons_self s2 r2)
          have hsp := sep_split hs1 hs2 he
          have hr1 : delimFree r := fun x hx => h1 x (List.mem_cons_of_mem s hx)
          have hr2 : delimFree r2 := fun x hx => h2 x (List.mem_cons_of_mem s2 hx)
          rw [hsp.1, ih hr1 hr2 hsp.2]

/-- C3 counterexample: two distinct argument lists with the same kind
whose fingerprints coincide — an argument containing the delimiter byte
`,` (`["a,b"]` versus `["a", "b"]`) serializes to the same hash input,
so `hashStringSlice` returns the same key. -/
theorem hashStringSlice_collision_counterexample :
    hashStringSlice opKind.HDel [[97, 44, 98]] =
      hashStringSlice opKind.HDel [[97], [98]] ∧
    ([[97, 44, 98]] : List GoStr) ≠ [[97], [98]] :=
  ⟨congrArg sha256hex (by decide), by decide⟩

/-- C3 as amended: the fingerprint is deterministic (identical kind and
args always give identical keys), and on argument lists free of the
delimiter byte the serialized hash input is equal exactly when both the
kind and the argument list are equal (so differing kinds, or differing
delimiter-free args, give different hash inputs); argument lists
containing the delimiter can collide. -/
theorem hashInput_injective_on_delimFree (k1 k2 : opKind) (a1 a2 : List GoStr)
    (h1 : delimFree a1) (h2 : delimFree a2) :
    (k1 = k2 → a1 = a2 → hashStringSlice k1 a1 = hashStringSlice k2 a2) ∧
    (hashInput k1 a1 = hashInput k2 a2 ↔ (k1 = k2 ∧ a1 = a2)) := by
  constructor
  · intro hk ha; rw [hk, ha]
  · constructor
    · intro he
      have he' : k1.toByte = k2.toByte ∧ encodeArgs a1 = encodeArgs a2 := by
        simpa [hashInput, encodeArgs] using he
      exact ⟨opKind_toByte_inj he'.1, encodeArgs_inj h1 h2 he'.2⟩
    · intro ⟨hk, ha⟩; rw [hk, ha]

/-- Witness for `hashInput_injective_on_delimFree`: differing kinds with
the same delimiter-free argument list yield different hash inputs. -/
theorem hashInput_injective_witness :
    hashInput opKind.HDel [[97]] ≠ hashInput opKind.Del [[97]] := by
  intro he
  have h := (hashInput_injective_on_delimFree opKind.HDel opKind.Del [[97]] [[97]]
    (by decide) (by decide)).2.mp he
  exact absurd h.1 (by decide)

/-! ### C10: transform/normalize round trips -/

theorem natDigitsRev_lt {n : Nat} (h : n < 10) : natDigitsRev n = [n] := by
  unfold natDigitsRev; rw [if_pos h]

theorem natDigitsRev_ge {n : Nat} (h : ¬ n < 10) :
    natDigitsRev n = n % 10 :: natDigitsRev (n / 10) := by
  conv_lhs => unfold natDigitsRev
  rw [if_neg h]

theorem itoaNat_lt {n : Nat} (h : n < 10) : itoaNat n = [n + 48] := by
  simp [itoaNat, natDigitsRev_lt h]

theorem itoaNat_ge {n : Nat} (h : ¬ n < 10) :
    itoaNat n = itoaNat (n / 10) ++ [n % 10 + 48] := by
  simp [itoaNat, natDigitsRev_ge h]

theorem parseDigits_append_single (l : List Nat) (b : Nat) :
    parseDigits (l ++ [b]) = parseDigits l * 10 + (b - 48) := by
  simp [parseDigits, List.foldl_append]

theorem parseDigits_itoaNat (n : Nat) : parseDigits (itoaNat n) = n := by
  induction n using Nat.strong_induction_on with
  | _ n ih =>
      by_cases h : n < 10
      · simp [itoaNat_lt h, parseDigits]
      · rw [itoaNat_ge h, parseDigits_append_single, ih (n / 10) (by omega)]
        omega

theorem itoaNat_all_digits (n : Nat) : (itoaNat n).all isDigitByte = true := by
  induction n using Nat.strong_induction_on with
  | _ n ih =>
      by_cases h : n < 10
      · rw [itoaNat_lt h]
        simp only [List.all_cons, List.all_nil, Bool.and_true]
        simp [isDigitByte]; omega
      · rw [itoaNat_ge h, List.all_append, ih (n / 10) (by omega)]
        simp only [Bool.true_and, List.all_cons, List.all_nil, Bool.and_true]
        have : n % 10 < 10 := by omega
        simp [isDigitByte]; omega

theorem itoaNat_ne_nil (n : Nat) : itoaNat n ≠ [] := by
  by_cases h : n < 10
  · rw [itoaNat_lt h]; simp
  · rw [itoaNat_ge h]; simp

theorem atoiInt_itoaNat (m : Nat) : atoiInt (itoaNat m) = (m : Int) := by
  cases hsplit : itoaNat m with
  | nil => exact absurd hsplit (itoaNat_ne_nil m)
  | cons b rest =>
      have hall : (b :: rest).all isDigitByte = true := hsplit ▸ itoaNat_all_digits m
      have hb : isDigitByte b = true := by
        simp only [List.all_cons, Bool.and_eq_true] at hall
        exact hall.1
      have hbrange : 48 ≤ b ∧ b ≤ 57 := by
        simpa [isDigitByte] using hb
      have hb43 : ¬ b = 43 := by omega
      have hb45 : ¬ b = 45 := by omega
      have := parseDigits_itoaNat m
      rw [hsplit] at this
      simp only [atoiInt, if_neg hb43, if_neg hb45, if_pos hall, this]

theorem atoiInt_itoaInt (i : Int) : atoiInt (itoaInt i) = i := by
  by_cases hi : i < 0
  · rw [itoaInt, if_pos hi]
    have hne : itoaNat i.natAbs ≠ [] := itoaNat_ne_nil _
    have hall : (itoaNat i.natAbs).all isDigitByte = true := itoaNat_all_digits _
    simp only [atoiInt]
    rw [if_neg (by omega : ¬ (45 : Nat) = 43)]
    rw [if_pos trivial, if_pos (And.intro hne hall), parseDigits_itoaNat]
    omega
  · rw [itoaInt, if_neg hi, atoiInt_itoaNat]
    omega

theorem toInt64_of_bounds {d : Int} (h1 : -(2 ^ 63) ≤ d) (h2 : d < 2 ^ 63) :
    toInt64 d = d := by
  unfold toInt64
  omega

/-- C10: for every operation kind, normalizing a transformed argument
list recovers the original call arguments; for `Expire` this holds for
every duration whose nanosecond count fits an `int64`. -/
theorem transform_normalize_roundtrip :
    (∀ (key : GoStr) (fields : List GoStr),
        normalizeHDel (transformHDel key fields) = (key, fields)) ∧
    (∀ keys, normalizeDel (transformDel keys) = keys) ∧
    (∀ keys, normalizeMGet (transformMGet keys) = keys) ∧
    (∀ key field, normalizeHGet (transformHGet key field) = (key, field)) ∧
    (∀ key, normalizeGet (transformGet key) = key) ∧
    (∀ key, normalizeHGetAll (transformHGetAll key) = key) ∧
    (∀ key, normalizeSMembers (transformSMembers key) = key) ∧
    (∀ (key : GoStr) (d : Int), -(2 ^ 63) ≤ d → d < 2 ^ 63 →
        normalizeExpire (transformExpire key d) = (key, d)) := by
  refine ⟨?_, fun _ => rfl, fun _ => rfl, fun _ _ => rfl, fun _ => rfl,
    fun _ => rfl, fun _ => rfl, ?_⟩
  · intro key fields
    cases fields with
    | nil => simp [transformHDel, normalizeHDel]
    | cons f fs => simp [transformHDel, normalizeHDel]
  · intro key d hlo hhi
    simp [transformExpire, normalizeExpire, toInt64_of_bounds hlo hhi, atoiInt_itoaInt]

/-- Witness for `transform_normalize_roundtrip`: the `Expire` round trip
at a concrete key and duration. -/
theorem transform_normalize_roundtrip_witness :
    normalizeExpire (transformExpire [107] (-1500)) = ([107], -1500) :=
  transform_normalize_roundtrip.2.2.2.2.2.2.2 [107] (-1500) (by decide) (by decide)

/-! ### Dispatch lemmas -/

theorem eraseOp_sublist (l : List (List Nat × redisOperation)) (h : List Nat) :
    (eraseOp l h).Sublist l := by
  induction l with
  | nil => simp [eraseOp]
  | cons p rest ih =>
      rcases p with ⟨k, v⟩
      simp only [eraseOp]
      by_cases hk : k = h
      · rw [if_pos hk]; exact List.sublist_cons_self _ _
      · rw [if_neg hk]; exact ih.cons₂ _

theorem mem_of_mem_eraseOp {l : List (List Nat × redisOperation)} {h : List Nat}
    {p : List Nat × redisOperation} (hp : p ∈ eraseOp l h) : p ∈ l :=
  (eraseOp_sublist l h).mem hp

theorem keysNodup_eraseOp {l : List (List Nat × redisOperation)} (h : List Nat)
    (hk : keysNodup l) : keysNodup (eraseOp l h) :=
  List.Nodup.sublist (((eraseOp_sublist l h).map Prod.fst)) hk

theorem lookupOp_eraseOp_ne {l : List (List Nat × redisOperation)} {h h2 : List Nat}
    (hne : h2 ≠ h) : lookupOp (eraseOp l h) h2 = lookupOp l h2 := by
  induction l with
  | nil => simp [eraseOp]
  | cons p rest ih =>
      rcases p with ⟨k, v⟩
      simp only [eraseOp, lookupOp]
      by_cases hk : k = h
      · rw [if_pos hk, if_neg]
        intro hkh
        exact hne (hkh ▸ hk)
      · rw [if_neg hk]
        simp only [lookupOp]
        by_cases hk2 : k = h2
        · rw [if_pos hk2, if_pos hk2]
        · rw [if_neg hk2, if_neg hk2]; exact ih

theorem lookupOp_eq_none_of_not_mem_keys {l : List (List Nat × redisOperation)}
    {h : List Nat} (hnm : h ∉ l.map Prod.fst) : lookupOp l h = none := by
  induction l with
  | nil => rfl
  | cons p rest ih =>
      rcases p with ⟨k, v⟩
      simp only [List.map_cons, List.mem_cons, not_or] at hnm
      simp only [lookupOp]
      rw [if_neg (fun hk => hnm.1 hk.symm)]
      exact ih hnm.2

theorem lookupOp_eraseOp_self {l : List (List Nat × redisOperation)} {h : List Nat}
    (hk : keysNodup l) : lookupOp (eraseOp l h) h = none := by
  induction l with
  | nil => rfl
  | cons p rest ih =>
      rcases p with ⟨k, v⟩
      simp only [keysNodup, List.map_cons, List.nodup_cons] at hk
      simp only [eraseOp]
      by_cases hkh : k = h
      · rw [if_pos hkh]
        exact lookupOp_eq_none_of_not_mem_keys (hkh ▸ hk.1)
      · rw [if_neg hkh]
        simp only [lookupOp]
        rw [if_neg hkh]
        exact ih hk.2

theorem lookupOp_mem {l : List (List Nat × redisOperation)} {h : List Nat}
    {o : redisOperation} (hl : lookupOp l h = some o) : (h, o) ∈ l := by
  induction l with
  | nil => simp [lookupOp] at hl
  | cons p rest ih =>
      rcases p with ⟨k, v⟩
      simp only [lookupOp] at hl
      by_cases hk : k = h
      · rw [if_pos hk] at hl
        subst hk
        obtain rfl : v = o := by injection hl
        exact List.mem_cons_self _ _
      · rw [if_neg hk] at hl
        exact List.mem_cons_of_mem _ (ih hl)

theorem lookupOp_ne_none_of_mem {l : List (List Nat × redisOperation)}
    {p : List Nat × redisOperation} (hp : p ∈ l) : lookupOp l p.1 ≠ none := by
  induction l with
  | nil => simp at hp
  | cons q rest ih =>
      rcases q with ⟨k, v⟩
      rcases List.mem_cons.mp hp with hq | hq
      · subst hq
        simp [lookupOp]
      · simp only [lookupOp]
        by_cases hk : k = p.1
        · rw [if_pos hk]; simp
        · rw [if_neg hk]; exact ih hq

/-- With every listener open, the delivery loop delivers the command to
each listener in order and decrements once per listener. -/
theorem deliver_all_open {chans : Nat → Bool} (cmd : Nat) {ls : List Nat}
    (hopen : ∀ l ∈ ls, chans l = true) :
    deliverListeners chans cmd ls =
      (ls.map (fun r => (r, cmd)), (ls.length : Int), false) := by
  induction ls with
  | nil => rfl
  | cons r rest ih =>
      have hr : chans r = true := hopen r (List.mem_cons_self r rest)
      have hrest : ∀ l ∈ rest, chans l = true :=
        fun l hl => hopen l (List.mem_cons_of_mem r hl)
      simp [deliverListeners, hr, ih hrest]

/-- A closed listener stops the delivery loop: the open front is
delivered and counted, the rest is skipped and the panic flag is set. -/
theorem deliver_stops_at_closed {chans : Nat → Bool} (cmd : Nat)
    {front : List Nat} {bad : Nat} (rest : List Nat)
    (hfront : ∀ l ∈ front, chans l = true) (hbad : chans bad = false) :
    deliverListeners chans cmd (front ++ bad :: rest) =
      (front.map (fun r => (r, cmd)), (front.length : Int), true) := by
  induction front with
  | nil => simp [deliverListeners, hbad]
  | cons r fr ih =>
      have hr : chans r = true := hfront r (List.mem_cons_self r fr)
      have hfr : ∀ l ∈ fr, chans l = true :=
        fun l hl => hfront l (List.mem_cons_of_mem r hl)
      simp [deliverListeners, hr, ih hfr]

/-- Every delivery made by the loop goes to a listener of the list and
carries the command. -/
theorem deliver_mem {chans : Nat → Bool} {cmd : Nat} {ls : List Nat}
    {x v : Nat} (hm : (x, v) ∈ (deliverListeners chans cmd ls).1) :
    x ∈ ls ∧ v = cmd := by
  induction ls with
  | nil => simp [deliverListeners] at hm
  | cons r rest ih =>
      by_cases hr : chans r = true
      · simp only [deliverListeners, if_pos hr, List.mem_cons] at hm
        rcases hm with hm | hm
        · obtain ⟨rfl, rfl⟩ : x = r ∧ v = cmd := by
            constructor <;> injection hm
          exact ⟨List.mem_cons_self _ _, rfl⟩
        · obtain ⟨h1, h2⟩ := ih hm
          exact ⟨List.mem_cons_of_mem _ h1, h2⟩
      · rw [Bool.not_eq_true] at hr
        simp [deliverListeners, hr] at hm

theorem sendResult_of_none {chans : Nat → Bool} {st : cacheState} {hash : List Nat}
    (cmd : Nat) (hl : lookupOp st.storage hash = none) :
    sendResult chans st hash cmd =
      ({ st with log := st.log ++ [logEvent.errHashNotFound hash] }, []) := by
  simp [sendResult, hl]

theorem sendResult_of_some {chans : Nat → Bool} {st : cacheState} {hash : List Nat}
    (cmd : Nat) {o : redisOperation} (hl : lookupOp st.storage hash = some o) :
    sendResult chans st hash cmd =
      ({ st with
          storage := eraseOp st.storage hash,
          activeListeners :=
            st.activeListeners - (deliverListeners chans cmd o.listeners).2.1,
          log := st.log ++
            if (deliverListeners chans cmd o.listeners).2.2
            then [logEvent.recovered] else [] },
       (deliverListeners chans cmd o.listeners).1) := by
  simp [sendResult, hl]

theorem sendResult_storage_sub {chans : Nat → Bool} {st : cacheState} {hash : List Nat}
    {cmd : Nat} {p : List Nat × redisOperation}
    (hp : p ∈ (sendResult chans st hash cmd).1.storage) : p ∈ st.storage := by
  cases hl : lookupOp st.storage hash with
  | none => rw [sendResult_of_none cmd hl] at hp; exact hp
  | some o => rw [sendResult_of_some cmd hl] at hp; exact mem_of_mem_eraseOp hp

theorem sendResult_keysNodup {chans : Nat → Bool} {st : cacheState} {hash : List Nat}
    {cmd : Nat} (hk : keysNodup st.storage) :
    keysNodup (sendResult chans st hash cmd).1.storage := by
  cases hl : lookupOp st.storage hash with
  | none => rw [sendResult_of_none cmd hl]; exact hk
  | some o => rw [sendResult_of_some cmd hl]; exact keysNodup_eraseOp hash hk

theorem sendResult_lookup_ne {chans : Nat → Bool} {st : cacheState}
    {hash h2 : List Nat} {cmd : Nat} (hne : h2 ≠ hash) :
    lookupOp (sendResult chans st hash cmd).1.storage h2 = lookupOp st.storage h2 := by
  cases hl : lookupOp st.storage hash with
  | none => rw [sendResult_of_none cmd hl]
  | some o => rw [sendResult_of_some cmd hl]; exact lookupOp_eraseOp_ne hne

theorem sendResult_lookup_cases {chans : Nat → Bool} {st : cacheState}
    {hash h2 : List Nat} {cmd : Nat} (hk : keysNodup st.storage) :
    lookupOp (sendResult chans st hash cmd).1.storage h2 = lookupOp st.storage h2 ∨
    lookupOp (sendResult chans st hash cmd).1.storage h2 = none := by
  by_cases hne : h2 = hash
  · subst hne
    cases hl : lookupOp st.storage h2 with
    | none => right; rw [sendResult_of_none cmd hl]; simpa using hl
    | some o => right; rw [sendResult_of_some cmd hl]; exact lookupOp_eraseOp_self hk
  · left; exact sendResult_lookup_ne hne

theorem countKey_eq_zero_of_not_mem_keys {l : List (List Nat × redisOperation)}
    {h : List Nat} (hnm : h ∉ l.map Prod.fst) : countKey h l = 0 := by
  rw [countKey, List.countP_eq_zero]
  intro p hp hph
  exact hnm (List.mem_map.mpr ⟨p, hp, by simpa using hph⟩)

theorem countKey_eq_one {l : List (List Nat × redisOperation)} {h : List Nat}
    {o : redisOperation} (hk : keysNodup l) (hl : lookupOp l h = some o) :
    countKey h l = 1 := by
  induction l with
  | nil => simp [lookupOp] at hl
  | cons p rest ih =>
      rcases p with ⟨k, v⟩
      simp only [keysNodup, List.map_cons, List.nodup_cons] at hk
      simp only [lookupOp] at hl
      by_cases hkh : k = h
      · rw [countKey, List.countP_cons]
        have : countKey h rest = 0 := countKey_eq_zero_of_not_mem_keys (hkh ▸ hk.1)
        rw [countKey] at this
        simp [this, hkh]
      · rw [if_neg hkh] at hl
        rw [countKey, List.countP_cons]
        have := ih hk.2 hl
        rw [countKey] at this
        simp [this, hkh]

/-- Splitting a list at the first occurrence of a member. -/
theorem exists_first_split {α : Type} [DecidableEq α] {a : α} {l : List α}
    (hm : a ∈ l) : ∃ u w, l = u ++ a :: w ∧ a ∉ u := by
  induction l with
  | nil => simp at hm
  | cons b l ih =>
      by_cases hb : b = a
      · exact ⟨[], l, by simp [hb], by simp⟩
      · rcases List.mem_cons.mp hm with hq | hq
        · exact absurd hq.symm hb
        · obtain ⟨u, w, he, hnu⟩ := ih hq
          refine ⟨b :: u, w, by simp [he], ?_⟩
          simp only [List.mem_cons, not_or]
          exact ⟨fun hab => hb hab.symm, hnu⟩

/-- If no entry present in the table along the dispatch list contains
the listener `x`, the dispatch makes no delivery to `x`. -/
theorem runDispatch_no_deliv {chans : Nat → Bool} {res : List Nat → Nat} {x : Nat} :
    ∀ (hs : List (List Nat)) (st : cacheState), keysNodup st.storage →
    (∀ h1 ∈ hs, ∀ o1, lookupOp st.storage h1 = some o1 → x ∉ o1.listeners) →
    countDeliv x (runDispatch chans res st hs).2 = 0 := by
  intro hs
  induction hs with
  | nil => intro st _ _; simp [runDispatch, countDeliv]
  | cons h1 hs ih =>
      intro st hk hno
      simp only [runDispatch, countDeliv, List.countP_append]
      have hd1 : countDeliv x (sendResult chans st h1 (res h1)).2 = 0 := by
        cases hl : lookupOp st.storage h1 with
        | none => rw [sendResult_of_none (res h1) hl]; rfl
        | some o1 =>
            rw [sendResult_of_some (res h1) hl]
            rw [countDeliv, List.countP_eq_zero]
            intro q hq hqx
            rcases q with ⟨qx, qv⟩
            obtain ⟨hqm, _⟩ := deliver_mem hq
            have : qx = x := by simpa using hqx
            exact hno h1 (List.mem_cons_self _ _) o1 hl (this ▸ hqm)
      have hd2 : countDeliv x (runDispatch chans res
          (sendResult chans st h1 (res h1)).1 hs).2 = 0 := by
        refine ih _ (sendResult_keysNodup hk) ?_
        intro h2 hh2 o2 hlo2 hx
        rcases @sendResult_lookup_cases chans st h1 h2 (res h1) hk with hc | hc
        · rw [hc] at hlo2
          exact hno h2 (List.mem_cons_of_mem _ hh2) o2 hlo2 hx
        · rw [hc] at hlo2
          exact absurd hlo2 (by simp)
      rw [countDeliv] at hd1 hd2
      omega

theorem countDeliv_append (x : Nat) (a b : List (Nat × Nat)) :
    countDeliv x (a ++ b) = countDeliv x a + countDeliv x b := by
  simp [countDeliv, List.countP_append]

theorem countP_eq_one_of_nodup_mem {x : Nat} {ls : List Nat} (hnd : ls.Nodup)
    (hm : x ∈ ls) : ls.countP (fun r => decide (r = x)) = 1 := by
  induction ls with
  | nil => simp at hm
  | cons r rest ih =>
      rcases List.nodup_cons.mp hnd with ⟨hr, hrest⟩
      rw [List.countP_cons]
      rcases List.mem_cons.mp hm with hq | hq
      · subst hq
        have hz : rest.countP (fun r => decide (r = x)) = 0 := by
          rw [List.countP_eq_zero]
          intro a ha hax
          exact hr ((by simpa using hax) ▸ ha)
        simp [hz]
      · have : ¬ r = x := fun he => hr (he ▸ hq)
        simp [ih hrest hq, this]

/-- The heart of dispatch correctness: when the dispatch list is
`u ++ h :: w` with `h` not in the prefix `u`, the table holds `o` at
`h`, every listener of `o` is open, owned only by `h`, and listed once,
then each listener of `o` receives exactly one delivery over the whole
dispatch, and it carries the result of `h` itself. -/
theorem runDispatch_delivers {chans : Nat → Bool} {res : List Nat → Nat} :
    ∀ (u : List (List Nat)) (st : cacheState) (w : List (List Nat))
      (h : List Nat) (o : redisOperation),
    keysNodup st.storage →
    lookupOp st.storage h = some o →
    (∀ l ∈ o.listeners, ownedBy st.storage l h) →
    (∀ l ∈ o.listeners, chans l = true) →
    o.listeners.Nodup →
    h ∉ u →
    ∀ l ∈ o.listeners,
      countDeliv l (runDispatch chans res st (u ++ h :: w)).2 = 1 ∧
      (l, res h) ∈ (runDispatch chans res st (u ++ h :: w)).2 := by
  intro u
  induction u with
  | nil =>
      intro st w h o hkeys hlk howned hopen hnodup _ l hl
      have hd1 : (sendResult chans st h (res h)).2 =
          o.listeners.map (fun r => (r, res h)) := by
        rw [sendResult_of_some (res h) hlk, deliver_all_open (res h) hopen]
      have hc1 : countDeliv l (sendResult chans st h (res h)).2 = 1 := by
        rw [hd1, countDeliv, List.countP_map]
        exact countP_eq_one_of_nodup_mem hnodup hl
      have hm1 : (l, res h) ∈ (sendResult chans st h (res h)).2 := by
        rw [hd1]
        exact List.mem_map.mpr ⟨l, hl, rfl⟩
      have hc2 : countDeliv l (runDispatch chans res
          (sendResult chans st h (res h)).1 w).2 = 0 := by
        refine runDispatch_no_deliv w _ (sendResult_keysNodup hkeys) ?_
        intro h2 _ o2 hlo2 hx
        have hmem2 : (h2, o2) ∈ (sendResult chans st h (res h)).1.storage :=
          lookupOp_mem hlo2
        have hmem2' : (h2, o2) ∈ st.storage := sendResult_storage_sub hmem2
        have hh2 : h2 = h := howned l hl (h2, o2) hmem2' hx
        subst hh2
        have hnone : lookupOp (sendResult chans st h2 (res h2)).1.storage h2 = none := by
          rw [sendResult_of_some (res h2) hlk]
          exact lookupOp_eraseOp_self hkeys
        rw [hnone] at hlo2
        exact absurd hlo2 (by simp)
      constructor
      · have hsplit : countDeliv l (runDispatch chans res st ([] ++ h :: w)).2 =
            countDeliv l (sendResult chans st h (res h)).2 +
            countDeliv l (runDispatch chans res (sendResult chans st h (res h)).1 w).2 := by
          simp only [List.nil_append, runDispatch, countDeliv_append]
        rw [hsplit, hc1, hc2]
      · simp only [List.nil_append, runDispatch]
        exact List.mem_append.mpr (Or.inl hm1)
  | cons h1 u ih =>
      intro st w h o hkeys hlk howned hopen hnodup hnu l hl
      have hne : h ≠ h1 := fun he => hnu (he ▸ List.mem_cons_self h1 u)
      have hnu' : h ∉ u := fun hm => hnu (List.mem_cons_of_mem h1 hm)
      have hc1 : countDeliv l (sendResult chans st h1 (res h1)).2 = 0 := by
        cases hl1 : lookupOp st.storage h1 with
        | none => rw [sendResult_of_none (res h1) hl1]; rfl
        | some o1 =>
            rw [sendResult_of_some (res h1) hl1, countDeliv, List.countP_eq_zero]
            intro q hq hqx
            rcases q with ⟨qx, qv⟩
            obtain ⟨hqm, _⟩ := deliver_mem hq
            have hqxl : qx = l := by simpa using hqx
            have : h1 = h :=
              howned l hl (h1, o1) (lookupOp_mem hl1) (hqxl ▸ hqm)
            exact hne this.symm
      have hst1 := @sendResult_keysNodup chans st h1 (res h1) hkeys
      have hlk1 : lookupOp (sendResult chans st h1 (res h1)).1.storage h = some o := by
        rw [sendResult_lookup_ne hne]; exact hlk
      have howned1 : ∀ l2 ∈ o.listeners,
          ownedBy (sendResult chans st h1 (res h1)).1.storage l2 h := by
        intro l2 hl2 p hp hpl
        exact howned l2 hl2 p (sendResult_storage_sub hp) hpl
      have hrec := ih (sendResult chans st h1 (res h1)).1 w h o hst1 hlk1 howned1
        hopen hnodup hnu' l hl
      constructor
      · have hsplit : countDeliv l (runDispatch chans res st ((h1 :: u) ++ h :: w)).2 =
            countDeliv l (sendResult chans st h1 (res h1)).2 +
            countDeliv l (runDispatch chans res (sendResult chans st h1 (res h1)).1
              (u ++ h :: w)).2 := by
          simp only [List.cons_append, runDispatch, countDeliv_append]
          rfl
        rw [hsplit, hc1, hrec.1]
      · simp only [List.cons_append, runDispatch]
        exact List.mem_append.mpr (Or.inr hrec.2)

/-- Arranging the snapshot into the six typed command maps preserves how
many entries carry each key. -/
theorem countKey_dispatchOrder (h : List Nat) (l : List (List Nat × redisOperation)) :
    countKey h (dispatchOrder l) = countKey h l := by
  have hr : List.range 6 = [0, 1, 2, 3, 4, 5] := by decide
  induction l with
  | nil => rfl
  | cons x l ih =>
      simp only [dispatchOrder, hr, List.flatMap_cons, List.flatMap_nil, List.append_nil,
        countKey, List.countP_append, List.filter_cons] at ih ⊢
      cases hk : x.2.kind
      case HDel =>
        simp only [show cmdGroup opKind.HDel = 0 from rfl]
        by_cases hx : x.1 = h <;> simp [hx, List.countP_cons] <;> omega
      case Expire =>
        simp only [show cmdGroup opKind.Expire = 5 from rfl]
        by_cases hx : x.1 = h <;> simp [hx, List.countP_cons] <;> omega
      case HGet =>
        simp only [show cmdGroup opKind.HGet = 2 from rfl]
        by_cases hx : x.1 = h <;> simp [hx, List.countP_cons] <;> omega
      case HGetAll =>
        simp only [show cmdGroup opKind.HGetAll = 3 from rfl]
        by_cases hx : x.1 = h <;> simp [hx, List.countP_cons] <;> omega
      case Get =>
        simp only [show cmdGroup opKind.Get = 2 from rfl]
        by_cases hx : x.1 = h <;> simp [hx, List.countP_cons] <;> omega
      case Del =>
        simp only [show cmdGroup opKind.Del = 0 from rfl]
        by_cases hx : x.1 = h <;> simp [hx, List.countP_cons] <;> omega
      case SMembers =>
        simp only [show cmdGroup opKind.SMembers = 4 from rfl]
        by_cases hx : x.1 = h <;> simp [hx, List.countP_cons] <;> omega
      case MGet =>
        simp only [show cmdGroup opKind.MGet = 1 from rfl]
        by_cases hx : x.1 = h <;> simp [hx, List.countP_cons] <;> omega

/-! ### C1: one submission, one shared result -/

/-- C1: for an entry present in the table when a flush snapshots it —
with the table well formed (unique keys), the listeners of the entry distinct
and belonging to no other entry, all of them still open, and the bulk
round-trip not failing — the flush submits that entry to the pipeline
exactly once, and every listener of the entry receives exactly one
delivery, carrying the single result value of that entry. -/
theorem single_submission_single_result (chans : Nat → Bool) (res : List Nat → Nat)
    (bulkErr : Option goError) (nowMicro : Int) (st : cacheState)
    (h : List Nat) (o : redisOperation)
    (hkeys : keysNodup st.storage)
    (hlk : lookupOp st.storage h = some o)
    (howned : ∀ l ∈ o.listeners, ownedBy st.storage l h)
    (hopen : ∀ l ∈ o.listeners, chans l = true)
    (hnodup : o.listeners.Nodup)
    (hbulk : isBulkFailure bulkErr = false) :
    countKey h (runPipeline chans res bulkErr nowMicro st).2.2 = 1 ∧
    ∀ l ∈ o.listeners,
      countDeliv l (runPipeline chans res bulkErr nowMicro st).2.1 = 1 ∧
      (l, res h) ∈ (runPipeline chans res bulkErr nowMicro st).2.1 := by
  have hsubs : countKey h (dispatchOrder st.storage) = 1 :=
    (countKey_dispatchOrder h st.storage).trans (countKey_eq_one hkeys hlk)
  have hrp : runPipeline chans res bulkErr nowMicro st =
      ((runDispatch chans res { st with lastPipeline := nowMicro }
          ((dispatchOrder st.storage).map Prod.fst)).1,
       (runDispatch chans res { st with lastPipeline := nowMicro }
          ((dispatchOrder st.storage).map Prod.fst)).2,
       dispatchOrder st.storage) := by
    simp [runPipeline, hbulk]
  have hcnt : ((dispatchOrder st.storage).map Prod.fst).countP
      (fun x => decide (x = h)) = 1 := by
    rw [List.countP_map]
    exact hsubs
  have hmem : h ∈ (dispatchOrder st.storage).map Prod.fst := by
    have hpos : 0 < ((dispatchOrder st.storage).map Prod.fst).countP
        (fun x => decide (x = h)) := by omega
    obtain ⟨a, ha, hah⟩ := List.countP_pos_iff.mp hpos
    have : a = h := by simpa using hah
    exact this ▸ ha
  obtain ⟨u, w, hsplit, hnu⟩ := exists_first_split hmem
  have hdel := @runDispatch_delivers chans res u { st with lastPipeline := nowMicro } w h o
    hkeys hlk howned hopen hnodup hnu
  rw [hrp]
  refine ⟨hsubs, ?_⟩
  intro l hl
  have := hdel l hl
  rw [hsplit]
  exact this

/-- Witness for `single_submission_single_result`: a concrete one-entry
table with two listeners yields one submission and a delivery of the
shared result to listener 1. -/
theorem single_submission_single_result_witness :
    countKey (hashStringSlice opKind.HDel [[97]])
      (runPipeline (fun _ => true) (fun _ => 7) none 9
        ⟨[(hashStringSlice opKind.HDel [[97]], ⟨[[97]], [0, 1], opKind.HDel⟩)],
         2, 100, 1000, 50, 0, false, []⟩).2.2 = 1 ∧
    (1, 7) ∈ (runPipeline (fun _ => true) (fun _ => 7) none 9
        ⟨[(hashStringSlice opKind.HDel [[97]], ⟨[[97]], [0, 1], opKind.HDel⟩)],
         2, 100, 1000, 50, 0, false, []⟩).2.1 := by
  have h := single_submission_single_result (fun _ => true) (fun _ => 7) none 9
    ⟨[(hashStringSlice opKind.HDel [[97]], ⟨[[97]], [0, 1], opKind.HDel⟩)],
     2, 100, 1000, 50, 0, false, []⟩
    (hashStringSlice opKind.HDel [[97]]) ⟨[[97]], [0, 1], opKind.HDel⟩
    (by simp [keysNodup])
    (by simp [lookupOp])
    (by intro l _ p hp _; rw [List.mem_singleton] at hp; rw [hp])
    (fun _ _ => rfl)
    (by decide)
    rfl
  exact ⟨h.1, (h.2 1 (by decide)).2⟩

/-! ### C2: abandoned-listener delivery -/

/-- C2 counterexample: an entry whose listener list is `[0, 1]`, with
listener 0 abandoned (closed) and listener 1 still open.  The recover in
`sendResult` catches the panic from the send to listener 0, but the
function then returns: the delivery list is empty, so the open remaining
listener 1 of the *same* operation receives nothing — contradicting the
claim that delivery proceeds to the remaining listeners of that
operation. -/
theorem sendResult_abandoned_counterexample :
    (sendResult (fun l => decide (0 < l))
        ⟨[(hashStringSlice opKind.Get [[107]], ⟨[[107]], [0, 1], opKind.Get⟩)],
         2, 100, 1000, 50, 0, false, []⟩
        (hashStringSlice opKind.Get [[107]]) 9).2 = [] ∧
    (fun l => decide (0 < l)) 1 = true ∧
    1 ∈ (redisOperation.listeners ⟨[[107]], [0, 1], opKind.Get⟩) ∧
    (fun l => decide (0 < l)) 0 = false := by
  refine ⟨?_, rfl, by decide, rfl⟩
  rw [sendResult_of_some 9 (by simp [lookupOp] :
    lookupOp [(hashStringSlice opKind.Get [[107]],
      (⟨[[107]], [0, 1], opKind.Get⟩ : redisOperation))]
      (hashStringSlice opKind.Get [[107]]) = some ⟨[[107]], [0, 1], opKind.Get⟩)]
  simp [deliverListeners]

/-- C2 as amended: when delivering to an operation whose listener list
is an open front, then an abandoned (closed) listener, then a rest, the
failure is recovered and logged as non-fatal and the entry is still
removed, but delivery stops at the failing listener: only the open front
is delivered, the remaining listeners of that same operation are
skipped.  Dispatch does continue to subsequent operations of the same
flush: a later well-formed fully-open operation still has each of its
listeners receive its own result exactly once. -/
theorem sendResult_abandoned_behavior (chans : Nat → Bool) (res : List Nat → Nat)
    (st : cacheState) (h : List Nat) (o : redisOperation)
    (front : List Nat) (bad : Nat) (rest : List Nat)
    (w : List (List Nat)) (h2 : List Nat) (o2 : redisOperation)
    (hkeys : keysNodup st.storage)
    (hlk : lookupOp st.storage h = some o)
    (hlist : o.listeners = front ++ bad :: rest)
    (hfront : ∀ l ∈ front, chans l = true)
    (hbad : chans bad = false)
    (hmem : h2 ∈ w)
    (hne : h2 ≠ h)
    (hlk2 : lookupOp st.storage h2 = some o2)
    (howned2 : ∀ l ∈ o2.listeners, ownedBy st.storage l h2)
    (hopen2 : ∀ l ∈ o2.listeners, chans l = true)
    (hnodup2 : o2.listeners.Nodup) :
    (sendResult chans st h (res h)).2 = front.map (fun r => (r, res h)) ∧
    (sendResult chans st h (res h)).1.log = st.log ++ [logEvent.recovered] ∧
    (sendResult chans st h (res h)).1.storage = eraseOp st.storage h ∧
    (∀ l ∈ o2.listeners,
      countDeliv l (runDispatch chans res st (h :: w)).2 = 1 ∧
      (l, res h2) ∈ (runDispatch chans res st (h :: w)).2) := by
  have hdeliv : deliverListeners chans (res h) o.listeners =
      (front.map (fun r => (r, res h)), (front.length : Int), true) := by
    rw [hlist]
    exact deliver_stops_at_closed (res h) rest hfront hbad
  refine ⟨?_, ?_, ?_, ?_⟩
  · rw [sendResult_of_some (res h) hlk, hdeliv]
  · rw [sendResult_of_some (res h) hlk, hdeliv]
    simp
  · rw [sendResult_of_some (res h) hlk]
  · obtain ⟨u2, w2, hw, hnu2⟩ := exists_first_split hmem
    have hnu : h2 ∉ h :: u2 := by
      simp only [List.mem_cons, not_or]
      exact ⟨hne, hnu2⟩
    have hsplit : h :: w = (h :: u2) ++ h2 :: w2 := by
      rw [hw]; rfl
    intro l hl
    rw [hsplit]
    exact @runDispatch_delivers chans res (h :: u2) st w2 h2 o2
      hkeys hlk2 howned2 hopen2 hnodup2 hnu l hl

/-- Witness for `sendResult_abandoned_behavior` at a concrete two-entry
table: entry `[1]` has listeners `[1, 0, 4]` with listener 0 abandoned,
entry `[2]` has open listeners `[2, 3]`; the first entry delivers only
to its open front `[1]`, and listener 2 of the second entry still
receives its result. -/
theorem sendResult_abandoned_behavior_witness :
    (sendResult (fun l => decide (0 < l))
        ⟨[([1], ⟨[[107]], [1, 0, 4], opKind.Get⟩), ([2], ⟨[[108]], [2, 3], opKind.Del⟩)],
         5, 100, 1000, 50, 0, false, []⟩ [1] 9).2 = [(1, 9)] ∧
    (2, 9) ∈ (runDispatch (fun l => decide (0 < l)) (fun _ => 9)
        ⟨[([1], ⟨[[107]], [1, 0, 4], opKind.Get⟩), ([2], ⟨[[108]], [2, 3], opKind.Del⟩)],
         5, 100, 1000, 50, 0, false, []⟩ [[1], [2]]).2 := by
  have h := sendResult_abandoned_behavior (fun l => decide (0 < l)) (fun _ => 9)
    ⟨[([1], ⟨[[107]], [1, 0, 4], opKind.Get⟩), ([2], ⟨[[108]], [2, 3], opKind.Del⟩)],
     5, 100, 1000, 50, 0, false, []⟩
    [1] ⟨[[107]], [1, 0, 4], opKind.Get⟩ [1] 0 [4] [[2]] [2] ⟨[[108]], [2, 3], opKind.Del⟩
    (by simp [keysNodup])
    rfl
    rfl
    (by decide)
    rfl
    (by decide)
    (by decide)
    rfl
    (by simp only [ownedBy]; decide)
    (by decide)
    (by decide)
  exact ⟨by simpa using h.1, (h.2.2.2 2 (by decide)).2⟩

/-! ### C9: the active-listener counter -/

theorem sumListeners_append_single (l : List (List Nat × redisOperation))
    (h : List Nat) (o : redisOperation) :
    sumListeners (l ++ [(h, o)]) = sumListeners l + o.listeners.length := by
  simp [sumListeners]

theorem sumListeners_eraseOp {l : List (List Nat × redisOperation)} {h : List Nat}
    {o : redisOperation} (hl : lookupOp l h = some o) :
    sumListeners (eraseOp l h) = sumListeners l - o.listeners.length := by
  induction l with
  | nil => simp [lookupOp] at hl
  | cons p restl ih =>
      rcases p with ⟨k, v⟩
      simp only [lookupOp] at hl
      simp only [eraseOp]
      by_cases hk : k = h
      · rw [if_pos hk] at hl ⊢
        obtain rfl : v = o := by injection hl
        simp [sumListeners]
      · rw [if_neg hk] at hl ⊢
        have := ih hl
        simp only [sumListeners, List.map_cons, List.sum_cons] at this ⊢
        omega

theorem sumListeners_updateOp {l : List (List Nat × redisOperation)} {h : List Nat}
    {o : redisOperation} (hl : lookupOp l h = some o) (o' : redisOperation) :
    sumListeners (updateOp l h o') =
      sumListeners l - o.listeners.length + o'.listeners.length := by
  induction l with
  | nil => simp [lookupOp] at hl
  | cons p restl ih =>
      rcases p with ⟨k, v⟩
      simp only [lookupOp] at hl
      simp only [updateOp]
      by_cases hk : k = h
      · rw [if_pos hk] at hl ⊢
        obtain rfl : v = o := by injection hl
        simp only [sumListeners, List.map_cons, List.sum_cons]
        omega
      · rw [if_neg hk] at hl ⊢
        have := ih hl
        simp only [sumListeners, List.map_cons, List.sum_cons] at this ⊢
        omega

/-- C9 counterexample: a quiescent state satisfying the counter
invariant (one entry, listeners `[0, 1]`, counter 2), in which listener
0 has been abandoned.  One complete dispatch of the entry (the flush
finishes normally — the panic is recovered) removes the entry but
decrements nothing, leaving counter 2 against an empty table: the
counter no longer equals the sum of listener-list lengths, and the
dispatch did not subtract the listener count of the entry. -/
theorem listener_counter_counterexample :
    cacheState.activeListeners
        ⟨[(hashStringSlice opKind.Get [[107]], ⟨[[107]], [0, 1], opKind.Get⟩)],
         2, 100, 1000, 50, 0, false, []⟩ =
      sumListeners (cacheState.storage
        ⟨[(hashStringSlice opKind.Get [[107]], ⟨[[107]], [0, 1], opKind.Get⟩)],
         2, 100, 1000, 50, 0, false, []⟩) ∧
    (sendResult (fun l => decide (0 < l))
        ⟨[(hashStringSlice opKind.Get [[107]], ⟨[[107]], [0, 1], opKind.Get⟩)],
         2, 100, 1000, 50, 0, false, []⟩
        (hashStringSlice opKind.Get [[107]]) 9).1.activeListeners ≠
      sumListeners (sendResult (fun l => decide (0 < l))
        ⟨[(hashStringSlice opKind.Get [[107]], ⟨[[107]], [0, 1], opKind.Get⟩)],
         2, 100, 1000, 50, 0, false, []⟩
        (hashStringSlice opKind.Get [[107]]) 9).1.storage := by
  constructor
  · simp [sumListeners]
  · rw [sendResult_of_some 9 (by simp [lookupOp] :
      lookupOp [(hashStringSlice opKind.Get [[107]],
        (⟨[[107]], [0, 1], opKind.Get⟩ : redisOperation))]
        (hashStringSlice opKind.Get [[107]]) = some ⟨[[107]], [0, 1], opKind.Get⟩)]
    simp [deliverListeners, eraseOp, sumListeners]

/-- C9 as amended: provided no listener has been abandoned, the counter
invariant is maintained — an `enqueue` on a running engine adds exactly
one to both the counter and the total listener count of the table, and a
dispatch of an entry whose listeners are all open removes the entry and
subtracts exactly its listener count from both sides; a dispatch that
hits an abandoned listener skips the remaining decrements, which is the
one way the two sides can diverge. -/
theorem listener_counter_invariant (st : cacheState) :
    (∀ kind args newCh, st.done = false →
      (enqueue st kind args newCh).1.activeListeners = st.activeListeners + 1 ∧
      sumListeners (enqueue st kind args newCh).1.storage =
        sumListeners st.storage + 1) ∧
    (∀ (chans : Nat → Bool) (h : List Nat) (cmd : Nat) (o : redisOperation),
      lookupOp st.storage h = some o →
      (∀ l ∈ o.listeners, chans l = true) →
      (sendResult chans st h cmd).1.activeListeners =
        st.activeListeners - o.listeners.length ∧
      sumListeners (sendResult chans st h cmd).1.storage =
        sumListeners st.storage - o.listeners.length) ∧
    (st.activeListeners = sumListeners st.storage →
      (∀ kind args newCh, st.done = false →
        (enqueue st kind args newCh).1.activeListeners =
          sumListeners (enqueue st kind args newCh).1.storage) ∧
      (∀ (chans : Nat → Bool) (h : List Nat) (cmd : Nat) (o : redisOperation),
        lookupOp st.storage h = some o →
        (∀ l ∈ o.listeners, chans l = true) →
        (sendResult chans st h cmd).1.activeListeners =
          sumListeners (sendResult chans st h cmd).1.storage)) := by
  have henq : ∀ (kind : opKind) (args : List GoStr) (newCh : Nat), st.done = false →
      (enqueue st kind args newCh).1.activeListeners = st.activeListeners + 1 ∧
      sumListeners (enqueue st kind args newCh).1.storage =
        sumListeners st.storage + 1 := by
    intro kind args newCh hdone
    cases hlk : lookupOp st.storage (hashStringSlice kind args) with
    | none =>
        constructor
        · simp [enqueue, hdone, hlk]
        · have hst : (enqueue st kind args newCh).1.storage =
              st.storage ++ [(hashStringSlice kind args, ⟨args, [newCh], kind⟩)] := by
            simp [enqueue, hdone, hlk]
          rw [hst, sumListeners_append_single]
          rfl
    | some o =>
        constructor
        · simp [enqueue, hdone, hlk]
        · have hst : (enqueue st kind args newCh).1.storage =
              updateOp st.storage (hashStringSlice kind args)
                { o with listeners := o.listeners ++ [newCh] } := by
            simp [enqueue, hdone, hlk]
          rw [hst, sumListeners_updateOp hlk]
          simp
          omega
  have hsend : ∀ (chans : Nat → Bool) (h : List Nat) (cmd : Nat) (o : redisOperation),
      lookupOp st.storage h = some o →
      (∀ l ∈ o.listeners, chans l = true) →
      (sendResult chans st h cmd).1.activeListeners =
        st.activeListeners - o.listeners.length ∧
      sumListeners (sendResult chans st h cmd).1.storage =
        sumListeners st.storage - o.listeners.length := by
    intro chans h cmd o hlk hopen
    rw [sendResult_of_some cmd hlk, deliver_all_open cmd hopen]
    exact ⟨rfl, sumListeners_eraseOp hlk⟩
  refine ⟨henq, hsend, ?_⟩
  intro hinv
  constructor
  · intro kind args newCh hdone
    obtain ⟨h1, h2⟩ := henq kind args newCh hdone
    rw [h1, h2, hinv]
  · intro chans h cmd o hlk hopen
    obtain ⟨h1, h2⟩ := hsend chans h cmd o hlk hopen
    rw [h1, h2, hinv]

/-- Witness for `listener_counter_invariant`: on a concrete one-entry
state satisfying the invariant, dispatching the entry (all listeners
open) subtracts its listener count from the counter. -/
theorem listener_counter_invariant_witness :
    (sendResult (fun _ => true)
        ⟨[([1], ⟨[[107]], [5, 6], opKind.Get⟩)], 2, 100, 1000, 50, 0, false, []⟩
        [1] 9).1.activeListeners =
      (2 : Int) - (([5, 6] : List Nat).length : Int) := by
  have h := ((listener_counter_invariant
      ⟨[([1], ⟨[[107]], [5, 6], opKind.Get⟩)], 2, 100, 1000, 50, 0, false, []⟩).2.1
    (fun _ => true) [1] 9 ⟨[[107]], [5, 6], opKind.Get⟩ rfl (fun _ _ => rfl)).1
  simpa using h

end AutoPipeline
